import Mathlib

/-!
Shallow embedding of the core data structures and algorithms of the
`bevy_metrics_dashboard` repository, together with theorems settling the
spec claims about them.

Conventions:
* Rust `Vec<T>` is modelled as `List α`; in-place index assignment
  (`v[i] = x`) becomes `List.set`, which is a no-op out of bounds (all
  verified code paths stay in bounds, matching Rust's panic-free runs).
* `f64` sample/boundary values are modelled as `Int`: the bucketing code
  only ever compares values through the `FloatOrd` total order, so any
  linearly ordered type is a faithful model; `0 : Int` plays the role of
  `f64::default() = 0.0`.  Exact bucket-bound arithmetic (`plots.rs`,
  `BucketRange::get_bounds`) is modelled over `ℚ`.
* Rust strings are modelled as `List Char`; byte slicing `&s[i..]`
  becomes `List.drop` guarded by the same out-of-range panic condition
  (all names involved are ASCII, so byte and char indices coincide).
-/

namespace BMD

/-! ## Ring (src/ring.rs)

`Ring<T>` holds `elements: Vec<T>` and `cursor: usize`; the cursor always
points at the most recently written element.  Note the buffer is created
with `vec![default(); size]`, so it is always "full". -/

structure Ring (α : Type) where
  elements : List α
  cursor : Nat
deriving Repr

/-- Embeds `Ring::new` (ring.rs:13-18): `vec![default(); size]`, cursor
`size - 1`. -/
def Ring.new (α : Type) [Inhabited α] (size : Nat) : Ring α :=
  ⟨List.replicate size default, size - 1⟩

/-- Embeds `Ring::size` (ring.rs:111-113). -/
def Ring.size {α : Type} (r : Ring α) : Nat :=
  r.elements.length

/-- Embeds `Ring::latest` (ring.rs:115-117): `&self.elements[self.cursor]`.
The Rust indexing panics out of bounds; under the maintained invariant
`cursor < elements.len()` it always yields an element, modelled with
`getD`. -/
def Ring.latest {α : Type} [Inhabited α] (r : Ring α) : α :=
  r.elements.getD r.cursor default

/-- Embeds `Ring::oldest_index` (ring.rs:119-121):
`(cursor + 1) % elements.len()`. -/
def Ring.oldest_index {α : Type} (r : Ring α) : Nat :=
  (r.cursor + 1) % r.elements.length

/-- Embeds `Ring::push` (ring.rs:123-127): overwrites the oldest element
and moves the cursor onto it. -/
def Ring.push {α : Type} (r : Ring α) (elem : α) : Ring α :=
  let c := r.oldest_index
  ⟨r.elements.set c elem, c⟩

/-- Embeds `Ring::iter_chronological` (ring.rs:129-139): the whole vector
when `oldest_index() == 0`, otherwise
`elements[oldest..] ++ elements[..=cursor]`. -/
def Ring.iter_chronological {α : Type} (r : Ring α) : List α :=
  if r.oldest_index = 0 then r.elements
  else r.elements.drop r.oldest_index ++ r.elements.take (r.cursor + 1)

/-- Folds `Ring::push` over a list of values (the shape of every caller's
per-cycle push loop). -/
def Ring.pushAll {α : Type} (r : Ring α) (vs : List α) : Ring α :=
  vs.foldl Ring.push r

/-! ### List helper lemmas -/

theorem list_set_drop_of_lt {α : Type} (l : List α) (i j : Nat) (x : α)
    (h : i < j) : (l.set i x).drop j = l.drop j := by
  induction l generalizing i j with
  | nil => simp
  | cons a t ih =>
    cases j with
    | zero => omega
    | succ j =>
      cases i with
      | zero => simp
      | succ i =>
        simp only [List.set_cons_succ, List.drop_succ_cons]
        exact ih i j (by omega)

theorem list_set_take_succ {α : Type} (l : List α) (i : Nat) (x : α)
    (h : i < l.length) : (l.set i x).take (i + 1) = l.take i ++ [x] := by
  induction l generalizing i with
  | nil => simp at h
  | cons a t ih =>
    cases i with
    | zero => simp
    | succ i =>
      simp only [List.set_cons_succ, List.take_succ_cons]
      rw [ih i (by simpa using h)]
      simp

theorem list_getD_set_self {α : Type} [Inhabited α] (l : List α) (i : Nat)
    (x : α) (h : i < l.length) : (l.set i x).getD i default = x := by
  induction l generalizing i with
  | nil => simp at h
  | cons a t ih =>
    cases i with
    | zero => simp [List.getD]
    | succ i =>
      simp only [List.set_cons_succ]
      simp [List.getD] at ih ⊢
      exact ih i (by simpa using h)

theorem list_getD_replicate {α : Type} [Inhabited α] (n i : Nat) :
    (List.replicate n (default : α)).getD i default = default := by
  induction n generalizing i with
  | zero => simp [List.getD]
  | succ n ih =>
    cases i with
    | zero => simp [List.replicate, List.getD]
    | succ i => simpa [List.replicate, List.getD] using ih i

/-! ### Ring invariants and the abstract push law -/

/-- A ring is well-formed when its cursor is in bounds. -/
def Ring.WF {α : Type} (r : Ring α) : Prop :=
  r.cursor < r.elements.length

instance {α : Type} (r : Ring α) : Decidable r.WF :=
  Nat.decLt _ _

theorem Ring.length_push {α : Type} (r : Ring α) (x : α) :
    (r.push x).elements.length = r.elements.length := by
  simp [Ring.push]

theorem Ring.wf_push {α : Type} (r : Ring α) (x : α)
    (h : 0 < r.elements.length) : (r.push x).WF := by
  simp only [Ring.WF, Ring.push, Ring.oldest_index, List.length_set]
  exact Nat.mod_lt _ h

theorem Ring.wf_new (α : Type) [Inhabited α] (n : Nat) (h : 0 < n) :
    (Ring.new α n).WF := by
  simp only [Ring.WF, Ring.new, List.length_replicate]
  omega

theorem Ring.length_iter {α : Type} (r : Ring α) (hwf : r.WF) :
    r.iter_chronological.length = r.elements.length := by
  have hwf' : r.cursor < r.elements.length := hwf
  have hn : 0 < r.elements.length := Nat.lt_of_le_of_lt (Nat.zero_le _) hwf'
  unfold Ring.iter_chronological
  split
  · rfl
  · rename_i hne
    simp only [List.length_append, List.length_drop, List.length_take]
    have ho : r.oldest_index = r.cursor + 1 := by
      unfold Ring.oldest_index at hne ⊢
      rcases Nat.lt_or_ge (r.cursor + 1) r.elements.length with h | h
      · exact Nat.mod_eq_of_lt h
      · have : r.cursor + 1 = r.elements.length := by omega
        rw [this] at hne
        exact absurd (Nat.mod_self _) hne
    simp only [Ring.oldest_index] at ho
    rw [Ring.oldest_index, ho]
    omega

/-- The abstract behaviour of `push` on an always-full ring: the oldest
element is dropped from the front of the chronological view and the new
element is appended. -/
theorem Ring.iter_push {α : Type} (r : Ring α) (x : α) (hwf : r.WF) :
    (r.push x).iter_chronological = r.iter_chronological.drop 1 ++ [x] := by
  have hwf' : r.cursor < r.elements.length := hwf
  have hn : 0 < r.elements.length := Nat.lt_of_le_of_lt (Nat.zero_le _) hwf'
  rcases Nat.lt_or_ge (r.cursor + 1) r.elements.length with hlt | hge
  -- cursor is not at the last slot: oldest index is cursor + 1
  · have ho : r.oldest_index = r.cursor + 1 := Nat.mod_eq_of_lt hlt
    have ho_ne : r.oldest_index ≠ 0 := by omega
    have hiter : r.iter_chronological =
        r.elements.drop (r.cursor + 1) ++ r.elements.take (r.cursor + 1) := by
      rw [Ring.iter_chronological, if_neg ho_ne, ho]
    have hpush : r.push x = ⟨r.elements.set (r.cursor + 1) x, r.cursor + 1⟩ := by
      simp [Ring.push, ho]
    rcases Nat.lt_or_ge (r.cursor + 1 + 1) r.elements.length with hlt2 | hge2
    -- new cursor also not at the last slot
    · have ho2 : (r.push x).oldest_index = r.cursor + 2 := by
        rw [hpush]
        simp only [Ring.oldest_index, List.length_set]
        exact Nat.mod_eq_of_lt (by omega)
      have ho2_ne : (r.push x).oldest_index ≠ 0 := by omega
      rw [Ring.iter_chronological, if_neg ho2_ne, ho2, hpush]
      simp only
      rw [list_set_drop_of_lt _ _ _ _ (by omega),
          list_set_take_succ _ _ _ hlt, hiter]
      have hlen : 1 ≤ (r.elements.drop (r.cursor + 1)).length := by
        simp only [List.length_drop]; omega
      rw [List.drop_append_of_le_length hlen]
      have hdd : (r.elements.drop (r.cursor + 1)).drop 1
          = r.elements.drop (r.cursor + 2) := by
        rw [List.drop_drop]
      rw [hdd]
      simp
    -- new cursor lands on the last slot: oldest index wraps to 0
    · have hc2 : r.cursor + 1 + 1 = r.elements.length := by omega
      have ho2 : (r.push x).oldest_index = 0 := by
        rw [hpush]
        simp only [Ring.oldest_index, List.length_set]
        rw [hc2]
        exact Nat.mod_self _
      rw [Ring.iter_chronological, if_pos ho2, hpush]
      simp only
      have hset : r.elements.set (r.cursor + 1) x
          = r.elements.take (r.cursor + 1) ++ [x] := by
        have := list_set_take_succ r.elements (r.cursor + 1) x hlt
        rw [← this]
        have : r.cursor + 1 + 1 = (r.elements.set (r.cursor + 1) x).length := by
          simp [hc2]
        rw [this, List.take_length]
      rw [hset, hiter]
      have hlen : 1 ≤ (r.elements.drop (r.cursor + 1)).length := by
        simp only [List.length_drop]; omega
      rw [List.drop_append_of_le_length hlen]
      have hdrop : (r.elements.drop (r.cursor + 1)).drop 1 = [] := by
        rw [List.drop_drop]
        apply List.drop_eq_nil_of_le
        omega
      rw [hdrop]
      simp
  -- cursor at the last slot: oldest index is 0, iter is the raw vector
  · have hc : r.cursor + 1 = r.elements.length := by omega
    have ho : r.oldest_index = 0 := by
      rw [Ring.oldest_index, hc]; exact Nat.mod_self _
    have hiter : r.iter_chronological = r.elements := by
      rw [Ring.iter_chronological, if_pos ho]
    have hpush : r.push x = ⟨r.elements.set 0 x, 0⟩ := by
      simp [Ring.push, ho]
    rcases Nat.lt_or_ge 1 r.elements.length with h1 | h1
    -- length ≥ 2
    · have ho2 : (r.push x).oldest_index = 1 := by
        rw [hpush]
        simp only [Ring.oldest_index, List.length_set]
        exact Nat.mod_eq_of_lt h1
      have ho2_ne : (r.push x).oldest_index ≠ 0 := by omega
      rw [Ring.iter_chronological, if_neg ho2_ne, ho2, hpush]
      simp only
      rw [list_set_drop_of_lt _ _ _ _ (by omega),
          list_set_take_succ _ _ _ (by omega), hiter]
      simp
    -- length = 1
    · have hlen1 : r.elements.length = 1 := by omega
      have ho2 : (r.push x).oldest_index = 0 := by
        rw [hpush]
        simp only [Ring.oldest_index, List.length_set, hlen1]
      rw [Ring.iter_chronological, if_pos ho2, hpush]
      simp only
      obtain ⟨a, ha⟩ : ∃ a, r.elements = [a] := List.length_eq_one.mp hlen1
      rw [hiter, ha]
      simp

theorem Ring.wf_pushAll {α : Type} (r : Ring α) (vs : List α) (hwf : r.WF) :
    (r.pushAll vs).WF ∧ (r.pushAll vs).elements.length = r.elements.length := by
  induction vs generalizing r with
  | nil => exact ⟨hwf, rfl⟩
  | cons v vs ih =>
    have hn : 0 < r.elements.length :=
      Nat.lt_of_le_of_lt (Nat.zero_le _) (show r.cursor < _ from hwf)
    have h := ih (r.push v) (Ring.wf_push r v hn)
    refine ⟨h.1, ?_⟩
    rw [show r.pushAll (v :: vs) = (r.push v).pushAll vs from rfl] at *
    rw [h.2, Ring.length_push]

/-- Pushing a whole list shifts the chronological view: the result is the
old view with the new values appended, truncated on the left back to the
ring's (fixed) length. -/
theorem Ring.iter_pushAll {α : Type} (r : Ring α) (vs : List α) (hwf : r.WF) :
    (r.pushAll vs).iter_chronological
      = (r.iter_chronological ++ vs).drop vs.length := by
  induction vs generalizing r with
  | nil => simp [Ring.pushAll]
  | cons v vs ih =>
    have hn : 0 < r.elements.length :=
      Nat.lt_of_le_of_lt (Nat.zero_le _) (show r.cursor < _ from hwf)
    have hstep : r.pushAll (v :: vs) = (r.push v).pushAll vs := rfl
    rw [hstep, ih (r.push v) (Ring.wf_push r v hn), Ring.iter_push r v hwf]
    have hiter_len : 0 < r.iter_chronological.length := by
      rw [Ring.length_iter r hwf]; exact hn
    obtain ⟨a, t, hat⟩ : ∃ a t, r.iter_chronological = a :: t := by
      cases h : r.iter_chronological with
      | nil => rw [h] at hiter_len; simp at hiter_len
      | cons a t => exact ⟨a, t, rfl⟩
    rw [hat]
    simp only [List.length_cons, List.cons_append, List.drop_succ_cons]
    rw [List.append_assoc]
    rfl

theorem Ring.iter_new (α : Type) [Inhabited α] (n : Nat) :
    (Ring.new α n).iter_chronological = List.replicate n (default : α) := by
  rcases n with _ | n
  · simp [Ring.new, Ring.iter_chronological, Ring.oldest_index]
  · have ho : (Ring.new α (n + 1)).oldest_index = 0 := by
      simp [Ring.new, Ring.oldest_index]
    rw [Ring.iter_chronological, if_pos ho]
    rfl

/-- C3: For every well-formed ring buffer of capacity `c ≥ 1` and every
sequence of more than `c` pushed values, `iter_chronological` yields
exactly the last `c` pushed values, oldest first. -/
theorem ring_iter_chronological_yields_last_capacity
    {α : Type} (r : Ring α) (c : Nat) (vs : List α)
    (hc : r.elements.length = c) (hwf : r.WF)
    (h1 : 1 ≤ c) (hmore : c < vs.length) :
    (r.pushAll vs).iter_chronological = vs.drop (vs.length - c) := by
  rw [Ring.iter_pushAll r vs hwf, List.drop_append_eq_append_drop]
  have hlen : r.iter_chronological.length = c := by
    rw [Ring.length_iter r hwf, hc]
  rw [List.drop_eq_nil_of_le (by omega), hlen]
  simp

/-- C3 witness: capacity 2, pushing [10, 20, 30] leaves exactly [20, 30]. -/
theorem ring_iter_chronological_yields_last_capacity_witness :
    ((Ring.new Int 2).elements.length = 2 ∧ (Ring.new Int 2).WF
        ∧ 1 ≤ 2 ∧ 2 < ([10, 20, 30] : List Int).length)
      ∧ ((Ring.new Int 2).pushAll [10, 20, 30]).iter_chronological
          = ([10, 20, 30] : List Int).drop (([10, 20, 30] : List Int).length - 2) :=
  ⟨⟨by decide, by decide, by decide, by decide⟩,
    ring_iter_chronological_yields_last_capacity (Ring.new Int 2) 2 [10, 20, 30]
      (by decide) (by decide) (by decide) (by decide)⟩

/-- C10: A ring created with capacity `n ≥ 1` is always full: its element
vector always has length `n`, `iter_chronological` always yields exactly
`n` elements, and after `k ≤ n` pushes the view is `n - k` default
placeholders followed by the pushed values — so default-valued
placeholders are visible to consumers before `n` pushes have occurred. -/
theorem ring_always_full (α : Type) [Inhabited α] (n : Nat) (vs : List α)
    (h1 : 1 ≤ n) :
    ((Ring.new α n).pushAll vs).size = n
      ∧ ((Ring.new α n).pushAll vs).iter_chronological.length = n
      ∧ (vs.length ≤ n →
          ((Ring.new α n).pushAll vs).iter_chronological
            = List.replicate (n - vs.length) (default : α) ++ vs) := by
  have hwf : (Ring.new α n).WF := Ring.wf_new α n (by omega)
  have hlen : (Ring.new α n).elements.length = n := by
    simp [Ring.new]
  have hpa := Ring.wf_pushAll (Ring.new α n) vs hwf
  refine ⟨by rw [Ring.size, hpa.2, hlen], ?_, ?_⟩
  · rw [Ring.length_iter _ hpa.1, hpa.2, hlen]
  · intro hle
    rw [Ring.iter_pushAll _ vs hwf, Ring.iter_new α n,
        List.drop_append_eq_append_drop]
    rw [List.drop_replicate]
    simp [Nat.sub_eq_zero_of_le hle]

/-- C10 witness: capacity 3 with two pushes shows a default placeholder
followed by the pushed values. -/
theorem ring_always_full_witness :
    (1 ≤ 3)
      ∧ ((Ring.new Int 3).pushAll [7, 8]).size = 3
      ∧ ((Ring.new Int 3).pushAll [7, 8]).iter_chronological.length = 3
      ∧ (([7, 8] : List Int).length ≤ 3 →
          ((Ring.new Int 3).pushAll [7, 8]).iter_chronological
            = List.replicate (3 - ([7, 8] : List Int).length) (default : Int)
                ++ [7, 8]) :=
  ⟨by decide, ring_always_full Int 3 [7, 8] (by decide)⟩

/-! ### Resizing (ring.rs:20-109)

`slice::copy_within(src_start..src_end, dst)` has memmove semantics: all
source values are read from the pre-call contents.  `fill` overwrites a
subrange with one value.  Both are modelled positionally with `mapIdx`;
the Rust bounds preconditions hold at every call site exercised below. -/

def listCopyWithin {α : Type} (l : List α) (src_start src_end dst : Nat) :
    List α :=
  l.mapIdx fun i x =>
    if dst ≤ i ∧ i < dst + (src_end - src_start) then
      l.getD (src_start + (i - dst)) x
    else x

def listFill {α : Type} (l : List α) (start stop : Nat) (v : α) : List α :=
  l.mapIdx fun i x => if start ≤ i ∧ i < stop then v else x

/-- Embeds `Ring::translate_left` (ring.rs:104-109). -/
def Ring.translate_left {α : Type} (r : Ring α)
    (n_move translate dst_start : Nat) : Ring α :=
  let src_start := dst_start + translate
  let src_end := src_start + n_move
  ⟨listCopyWithin r.elements src_start src_end dst_start, r.cursor⟩

/-- Embeds `Ring::grow` (ring.rs:38-65): `Vec::resize` appends defaults,
then the oldest run is shifted right by `translate` and the vacated range
`[oldest_i, old_size)` is filled with the oldest value. -/
def Ring.grow {α : Type} [Inhabited α] (r : Ring α) (new_size : Nat) :
    Ring α :=
  let old_size := r.elements.length
  let old_last_i := old_size - 1
  let oldest_i := r.oldest_index
  let oldest_value := r.elements.getD oldest_i default
  let els := r.elements ++ List.replicate (new_size - old_size) default
  if r.cursor = old_last_i then ⟨els, r.cursor⟩
  else
    let translate := new_size - old_size
    let els1 := listCopyWithin els oldest_i old_size (oldest_i + translate)
    let els2 := listFill els1 oldest_i old_size oldest_value
    ⟨els2, r.cursor⟩

/-- Embeds `Ring::shrink` (ring.rs:67-102). -/
def Ring.shrink {α : Type} (r : Ring α) (new_size : Nat) : Ring α :=
  let old_size := r.elements.length
  let new_last_i := new_size - 1
  if r.cursor = new_last_i then ⟨r.elements.take new_size, r.cursor⟩
  else if r.cursor < new_size then
    let n_move := new_last_i - r.cursor
    let translate := old_size - new_size
    let dst_start := r.cursor + 1
    let r1 := r.translate_left n_move translate dst_start
    ⟨r1.elements.take new_size, r1.cursor⟩
  else
    let n_move := new_size
    let translate := r.cursor - new_last_i
    let r1 := r.translate_left n_move translate 0
    ⟨r1.elements.take new_size, new_last_i⟩

/-- Embeds `Ring::resize` (ring.rs:20-36). -/
def Ring.resize {α : Type} [Inhabited α] (r : Ring α) (new_size : Nat) :
    Ring α :=
  let old_size := r.elements.length
  if new_size = old_size then r
  else if new_size = 0 then ⟨[], r.cursor⟩
  else if new_size < old_size then r.shrink new_size
  else r.grow new_size

/-- C5: the claim says growing the capacity loses no currently held
element.  It is false: growing a capacity-4 ring holding (chronologically)
[2, 3, 4, 5] to capacity 5 produces the view [2, 2, 2, 4, 5] — the fill
of `[oldest_i, old_size)` in `Ring::grow` overwrites part of the
just-copied oldest run whenever the grow amount is smaller than that run,
so the element 3 is lost (and the new slots are visible as filler copies
of the oldest value rather than staying unused). -/
theorem ring_grow_loses_element :
    (((Ring.new Int 4).pushAll [1, 2, 3, 4, 5]).iter_chronological
        = [2, 3, 4, 5])
      ∧ ((((Ring.new Int 4).pushAll [1, 2, 3, 4, 5]).resize 5).iter_chronological
          = [2, 2, 2, 4, 5])
      ∧ (3 : Int) ∈ ((Ring.new Int 4).pushAll [1, 2, 3, 4, 5]).iter_chronological
      ∧ (3 : Int) ∉
          ((((Ring.new Int 4).pushAll [1, 2, 3, 4, 5]).resize 5).iter_chronological) := by
  decide

/-- C4: the claim says resizing C1 → C2 → C1 with no intervening pushes
preserves the newest `min(C1, C2)` elements.  It is false for C1 = 4,
C2 = 5: the buggy grow step corrupts the window, so the round trip turns
the chronological view [2, 3, 4, 5] into [2, 2, 4, 5]. -/
theorem ring_resize_round_trip_loses_data :
    (((Ring.new Int 4).pushAll [1, 2, 3, 4, 5]).iter_chronological
        = [2, 3, 4, 5])
      ∧ (((((Ring.new Int 4).pushAll [1, 2, 3, 4, 5]).resize 5).resize 4).iter_chronological
          = [2, 2, 4, 5])
      ∧ ((((((Ring.new Int 4).pushAll [1, 2, 3, 4, 5]).resize 5).resize 4).iter_chronological)
          ≠ (((Ring.new Int 4).pushAll [1, 2, 3, 4, 5]).iter_chronological)) := by
  decide

/-- C6 counterexample: the claim says `latest()` returns none when no
element has been pushed yet.  In the code `latest()` returns a plain
(non-optional) reference and a freshly created ring is already full of
default values: on `Ring::new(1)` with no pushes, `latest()` yields the
default element `0` and the chronological view is the non-empty `[0]`. -/
theorem ring_latest_fresh_yields_default :
    (Ring.new Int 1).latest = 0
      ∧ (Ring.new Int 1).iter_chronological = [0] := by
  decide

/-- C6 (amended): `latest()` always returns a value — after a push it is
the element just pushed, and on a freshly created ring (nothing pushed
yet) it is the default placeholder; a "none" outcome does not exist. -/
theorem ring_latest_returns_most_recent_push {α : Type} [Inhabited α]
    (r : Ring α) (x : α) (hwf : r.WF) :
    (r.push x).latest = x
      ∧ ∀ n : Nat, (Ring.new α n).latest = default := by
  constructor
  · have hwf' : r.cursor < r.elements.length := hwf
    have hn : 0 < r.elements.length := Nat.lt_of_le_of_lt (Nat.zero_le _) hwf'
    have hc : (r.push x).cursor < r.elements.length := Nat.mod_lt _ hn
    simp only [Ring.latest, Ring.push]
    exact list_getD_set_self r.elements _ x hc
  · intro n
    simp only [Ring.latest, Ring.new]
    exact list_getD_replicate n (n - 1)

/-- C6 (amended) witness. -/
theorem ring_latest_returns_most_recent_push_witness :
    (Ring.new Int 2).WF
      ∧ (((Ring.new Int 2).push 9).latest = 9
          ∧ ∀ n : Nat, (Ring.new Int n).latest = default) :=
  ⟨by decide, ring_latest_returns_most_recent_push (Ring.new Int 2) 9 (by decide)⟩

/-! ## Histogram bucketing (src/plots.rs)

`add_value_to_bucket` (plots.rs:536-542) locates the bucket with
`bucket_bounds.binary_search_by_key(&FloatOrd(value), ...)` and merges
`Ok(i)`/`Err(i)` into one index.  `bsGo` embeds the Rust standard
library's `binary_search_by` loop (left/right halving, already merged to
the single returned index); the fuel argument dominates the loop's
decreasing interval width, `len + 1` always suffices. -/

def bsGo (l : List Int) (v : Int) : Nat → Nat → Nat → Nat
  | 0, left, _ => left
  | fuel + 1, left, right =>
    if left < right then
      if l.getD (left + (right - left) / 2) 0 < v then
        bsGo l v fuel (left + (right - left) / 2 + 1) right
      else if v < l.getD (left + (right - left) / 2) 0 then
        bsGo l v fuel left (left + (right - left) / 2)
      else left + (right - left) / 2
    else left

/-- The merged `Ok(i) | Err(i) => i` result of
`binary_search_by_key(&FloatOrd(value), ...)` on the whole slice. -/
def binary_search_merged (l : List Int) (v : Int) : Nat :=
  bsGo l v (l.length + 1) 0 l.length

/-- Embeds `add_value_to_bucket` (plots.rs:536-542).  The Rust
`bucket_counts[bucket_i] += 1` panics out of bounds; all verified uses
keep `bucket_counts.len() = bucket_bounds.len() + 1`, which makes the
index in range (see `bsGo_le`). -/
def add_value_to_bucket (bucket_bounds : List Int) (value : Int)
    (bucket_counts : List Nat) : List Nat :=
  let bucket_i := binary_search_merged bucket_bounds value
  bucket_counts.set bucket_i (bucket_counts.getD bucket_i 0 + 1)

theorem bsGo_le (l : List Int) (v : Int) :
    ∀ fuel left right, left ≤ right →
      bsGo l v fuel left right ≤ right := by
  intro fuel
  induction fuel with
  | zero => intro left right h; exact h
  | succ fuel ih =>
    intro left right hlr
    simp only [bsGo]
    by_cases h : left < right
    · rw [if_pos h]
      have hmid : left + (right - left) / 2 < right := by omega
      by_cases h1 : l.getD (left + (right - left) / 2) 0 < v
      · rw [if_pos h1]; exact ih _ _ (by omega)
      · rw [if_neg h1]
        by_cases h2 : v < l.getD (left + (right - left) / 2) 0
        · rw [if_pos h2]
          exact le_trans (ih _ _ (by omega)) (by omega)
        · rw [if_neg h2]; omega
    · rw [if_neg h]; exact hlr

theorem list_pairwise_getD_lt (l : List Int)
    (hs : List.Pairwise (· < ·) l) (i j : Nat) (hij : i < j)
    (hj : j < l.length) : l.getD i 0 < l.getD j 0 := by
  induction l generalizing i j with
  | nil => simp at hj
  | cons a t ih =>
    have hs' := List.pairwise_cons.mp hs
    cases i with
    | zero =>
      cases j with
      | zero => omega
      | succ j =>
        have hj' : j < t.length := by simpa using hj
        have hget : t.get? j = some (t.get ⟨j, hj'⟩) := List.get?_eq_get hj'
        have hmem : t.getD j 0 ∈ t := by
          simp only [List.getD, hget, Option.getD_some]
          exact List.get_mem t j hj'
        simpa [List.getD] using hs'.1 _ hmem
    | succ i =>
      cases j with
      | zero => omega
      | succ j =>
        simpa [List.getD] using ih hs'.2 i j (by omega) (by simpa using hj)

/-- Correctness of the embedded binary search on a strictly sorted slice:
the returned index is the least one whose boundary is `≥ v` (the slice
length when there is none). -/
theorem bsGo_spec (l : List Int) (v : Int) (hs : List.Pairwise (· < ·) l) :
    ∀ fuel left right, left ≤ right → right ≤ l.length →
      right - left < fuel →
      (∀ j, j < left → l.getD j 0 < v) →
      (∀ j, right ≤ j → j < l.length → v ≤ l.getD j 0) →
      (∀ j, j < bsGo l v fuel left right → l.getD j 0 < v)
        ∧ (bsGo l v fuel left right < l.length →
            v ≤ l.getD (bsGo l v fuel left right) 0)
        ∧ bsGo l v fuel left right ≤ l.length := by
  intro fuel
  induction fuel with
  | zero => intro left right _ _ h3 _ _; omega
  | succ fuel ih =>
    intro left right hlr hrl hfuel hleft hright
    simp only [bsGo]
    by_cases h : left < right
    · rw [if_pos h]
      have hmid_lt : left + (right - left) / 2 < right := by omega
      have hmid_ge : left ≤ left + (right - left) / 2 := by omega
      by_cases h1 : l.getD (left + (right - left) / 2) 0 < v
      · rw [if_pos h1]
        refine ih _ _ (by omega) hrl (by omega) ?_ hright
        intro j hj
        rcases Nat.lt_or_ge j left with hc | hc
        · exact hleft j hc
        · calc l.getD j 0 ≤ l.getD (left + (right - left) / 2) 0 := by
                rcases Nat.lt_or_eq_of_le (Nat.le_of_lt_succ hj) with hlt | heq
                · exact le_of_lt (list_pairwise_getD_lt l hs j _ hlt (by omega))
                · rw [heq]
            _ < v := h1
      · rw [if_neg h1]
        by_cases h2 : v < l.getD (left + (right - left) / 2) 0
        · rw [if_pos h2]
          refine ih _ _ (by omega) (by omega) (by omega) hleft ?_
          intro j hj hjl
          rcases Nat.lt_or_eq_of_le hj with hlt | heq
          · exact le_of_lt
              (lt_trans h2 (list_pairwise_getD_lt l hs _ j hlt hjl))
          · rw [← heq]; exact le_of_lt h2
        · rw [if_neg h2]
          have heq : l.getD (left + (right - left) / 2) 0 = v := by omega
          refine ⟨?_, fun _ => le_of_eq heq.symm, by omega⟩
          intro j hj
          rcases Nat.lt_or_ge j left with hc | hc
          · exact hleft j hc
          · rw [← heq]
            exact list_pairwise_getD_lt l hs j _ hj (by omega)
    · rw [if_neg h]
      have hleq : left = right := by omega
      exact ⟨hleft, fun hl => hright left (by omega) hl, by omega⟩

theorem list_getD_set_ne {α : Type} [Inhabited α] (l : List α) (i j : Nat)
    (x : α) (h : j ≠ i) : (l.set i x).getD j default = l.getD j default := by
  induction l generalizing i j with
  | nil => simp
  | cons a t ih =>
    cases i with
    | zero =>
      cases j with
      | zero => omega
      | succ j => simp [List.getD]
    | succ i =>
      cases j with
      | zero => simp [List.getD]
      | succ j =>
        simp only [List.set_cons_succ]
        simpa [List.getD] using ih i j (by omega)

theorem list_sum_set_incr (cs : List Nat) (i : Nat) (h : i < cs.length) :
    (cs.set i (cs.getD i 0 + 1)).sum = cs.sum + 1 := by
  induction cs generalizing i with
  | nil => simp at h
  | cons c t ih =>
    cases i with
    | zero =>
      have hgetD : (c :: t).getD 0 0 = c := by simp [List.getD]
      rw [hgetD, List.set_cons_zero, List.sum_cons, List.sum_cons]
      omega
    | succ i =>
      have hgetD : (c :: t).getD (i + 1) 0 = t.getD i 0 := by simp [List.getD]
      rw [hgetD, List.set_cons_succ, List.sum_cons, List.sum_cons,
        ih i (by simpa using h)]
      omega

/-- C1: For every strictly sorted boundary list `b` and every sample
value `v`, ingesting `v` increments exactly one bucket count: the one at
the smallest index `i` with `b[i] ≥ v`, or the last bucket (index
`b.length`) when no boundary is `≥ v`.  In particular with boundaries
`[0, 10]`: value 5 goes to bucket 1, value -1 to bucket 0, value 15 to
bucket 2. -/
theorem add_value_to_bucket_increments_least_upper_bucket :
    (∀ (b : List Int) (v : Int) (counts : List Nat),
      List.Pairwise (· < ·) b → counts.length = b.length + 1 →
      ∃ i, i ≤ b.length
        ∧ (∀ j, j < i → b.getD j 0 < v)
        ∧ (i < b.length → v ≤ b.getD i 0)
        ∧ add_value_to_bucket b v counts
            = counts.set i (counts.getD i 0 + 1)
        ∧ (add_value_to_bucket b v counts).getD i 0 = counts.getD i 0 + 1
        ∧ (∀ j, j ≠ i →
            (add_value_to_bucket b v counts).getD j 0 = counts.getD j 0))
      ∧ add_value_to_bucket [0, 10] 5 [0, 0, 0] = [0, 1, 0]
      ∧ add_value_to_bucket [0, 10] (-1) [0, 0, 0] = [1, 0, 0]
      ∧ add_value_to_bucket [0, 10] 15 [0, 0, 0] = [0, 0, 1] := by
  refine ⟨?_, by decide, by decide, by decide⟩
  intro b v counts hs hlen
  have hspec := bsGo_spec b v hs (b.length + 1) 0 b.length
    (Nat.zero_le _) (le_refl _) (by omega)
    (by intro j hj; omega)
    (by intro j hj hjl; omega)
  refine ⟨binary_search_merged b v, hspec.2.2, hspec.1, hspec.2.1, rfl, ?_, ?_⟩
  · have hi : binary_search_merged b v < counts.length := by
      have := hspec.2.2
      simp only [binary_search_merged] at this ⊢
      omega
    exact list_getD_set_self counts _ _ hi
  · intro j hj
    exact list_getD_set_ne counts _ j _ hj

/-- C1 witness: boundaries `[0, 10]`, value 5, counts `[0, 0, 0]`. -/
theorem add_value_to_bucket_increments_least_upper_bucket_witness :
    (List.Pairwise (· < ·) ([0, 10] : List Int)
        ∧ ([0, 0, 0] : List Nat).length = ([0, 10] : List Int).length + 1)
      ∧ ∃ i, i ≤ ([0, 10] : List Int).length
          ∧ (∀ j, j < i → ([0, 10] : List Int).getD j 0 < 5)
          ∧ (i < ([0, 10] : List Int).length → 5 ≤ ([0, 10] : List Int).getD i 0)
          ∧ add_value_to_bucket [0, 10] 5 [0, 0, 0]
              = ([0, 0, 0] : List Nat).set i (([0, 0, 0] : List Nat).getD i 0 + 1)
          ∧ (add_value_to_bucket [0, 10] 5 [0, 0, 0]).getD i 0
              = ([0, 0, 0] : List Nat).getD i 0 + 1
          ∧ (∀ j, j ≠ i →
              (add_value_to_bucket [0, 10] 5 [0, 0, 0]).getD j 0
                = ([0, 0, 0] : List Nat).getD j 0) :=
  ⟨⟨by decide, by decide⟩,
    add_value_to_bucket_increments_least_upper_bucket.1 [0, 10] 5 [0, 0, 0]
      (by decide) (by decide)⟩

/-! ## Windowed histogram update (plots.rs:413-450)

The windowed branch of `HistogramData::update`: clear the counts, drain
the newest samples from the raw block (most-recent-first, i.e. the block
reversed) into the ring, up to the ring's capacity (`max_len()`, which
for this snapshot's always-full `Ring` equals `size()`), then re-bucket
the ring's entire chronological contents. -/

def update_windowed (bounds : List Int) (bucket_counts : List Nat)
    (ring : Option (Ring Int)) (window_size : Nat) (block : List Int) :
    List Nat × Ring Int :=
  let counts0 := List.replicate bucket_counts.length 0
  let r := ring.getD (Ring.new Int window_size)
  let r1 := r.pushAll (block.reverse.take r.size)
  (r1.iter_chronological.foldl
      (fun cs v => add_value_to_bucket bounds v cs) counts0,
    r1)

theorem add_value_to_bucket_length (b : List Int) (v : Int)
    (cs : List Nat) : (add_value_to_bucket b v cs).length = cs.length := by
  simp [add_value_to_bucket]

theorem add_value_to_bucket_sum (b : List Int) (v : Int) (cs : List Nat)
    (h : cs.length = b.length + 1) :
    (add_value_to_bucket b v cs).sum = cs.sum + 1 := by
  have hle : binary_search_merged b v ≤ b.length :=
    bsGo_le b v (b.length + 1) 0 b.length (Nat.zero_le _)
  exact list_sum_set_incr cs _ (by omega)

theorem bucket_fold_sum (b : List Int) (L : List Int) :
    ∀ cs : List Nat, cs.length = b.length + 1 →
      ((L.foldl (fun cs v => add_value_to_bucket b v cs) cs).sum
          = cs.sum + L.length
        ∧ (L.foldl (fun cs v => add_value_to_bucket b v cs) cs).length
            = cs.length) := by
  induction L with
  | nil => intro cs _; exact ⟨by simp, rfl⟩
  | cons x L ih =>
    intro cs hcs
    have hlen := add_value_to_bucket_length b x cs
    have h := ih (add_value_to_bucket b x cs) (by omega)
    simp only [List.foldl_cons, List.length_cons]
    rw [h.1, add_value_to_bucket_sum b x cs hcs]
    exact ⟨by omega, by rw [h.2, hlen]⟩

theorem take_reverse_eq (l : List Int) (n : Nat) (h : l.length = n + 1) :
    l.reverse.take n = (l.drop 1).reverse := by
  cases l with
  | nil => simp at h
  | cons a t =>
    have ht : t.length = n := by simpa using h
    rw [List.reverse_cons, List.drop_one, List.tail_cons,
      List.take_append_eq_append_take]
    have h1 : t.reverse.take n = t.reverse := by
      have hn : n = t.reverse.length := by simp [ht]
      rw [hn, List.take_length]
    have h2 : n - t.reverse.length = 0 := by simp [ht]
    rw [h1, h2]
    simp

/-- C2: In windowed mode with window size `w`, an update resets the
bucket counts to zero and recomputes them from the ring's entire
contents: the result does not depend on the previous counts, and after a
block of `w + 1` samples has been pushed through the update the ring
holds exactly the newest `w` samples (the oldest is excluded) and the
bucket counts sum to exactly `w`. -/
theorem histogram_windowed_update_recomputes_window
    (bounds : List Int) (counts : List Nat) (w : Nat) (block : List Int)
    (hw : 1 ≤ w) (hc : counts.length = bounds.length + 1)
    (hb : block.length = w + 1) :
    (update_windowed bounds counts none w block).1.sum = w
      ∧ (update_windowed bounds counts none w block).2.iter_chronological
          = (block.drop 1).reverse
      ∧ ∀ counts2 : List Nat, counts2.length = counts.length →
          update_windowed bounds counts2 none w block
            = update_windowed bounds counts none w block := by
  have hsize : (Ring.new Int w).size = w := by simp [Ring.size, Ring.new]
  have hwf : (Ring.new Int w).WF := Ring.wf_new Int w (by omega)
  have hLlen : (block.reverse.take ((Ring.new Int w).size)).length = w := by
    rw [hsize]
    simp only [List.length_take, List.length_reverse]
    omega
  have hu : ∀ cs : List Nat, update_windowed bounds cs none w block
      = ((((Ring.new Int w).pushAll
              (block.reverse.take ((Ring.new Int w).size))).iter_chronological).foldl
            (fun a v => add_value_to_bucket bounds v a)
            (List.replicate cs.length 0),
          (Ring.new Int w).pushAll
            (block.reverse.take ((Ring.new Int w).size))) :=
    fun _ => rfl
  have hiter : ((Ring.new Int w).pushAll
        (block.reverse.take ((Ring.new Int w).size))).iter_chronological
      = block.reverse.take ((Ring.new Int w).size) := by
    rw [Ring.iter_pushAll _ _ hwf, Ring.iter_new, hLlen,
      List.drop_append_eq_append_drop]
    have h1 : (List.replicate w (default : Int)).drop w = [] := by simp
    have h2 : w - (List.replicate w (default : Int)).length = 0 := by simp
    rw [h1, h2]
    simp
  have hL : block.reverse.take ((Ring.new Int w).size)
      = (block.drop 1).reverse := by
    rw [hsize]
    exact take_reverse_eq block w hb
  refine ⟨?_, ?_, ?_⟩
  · rw [hu counts]
    simp only
    rw [hiter]
    have hfold := (bucket_fold_sum bounds
      (block.reverse.take ((Ring.new Int w).size))
      (List.replicate counts.length 0) (by simp [hc])).1
    rw [hfold, hLlen]
    simp
  · rw [hu counts]
    simp only
    rw [hiter, hL]
  · intro counts2 h2
    rw [hu counts2, hu counts, h2]

/-- C2 witness: window size 1, boundaries `[0]`, a block of 2 samples. -/
theorem histogram_windowed_update_recomputes_window_witness :
    (1 ≤ 1 ∧ ([0, 0] : List Nat).length = ([0] : List Int).length + 1
        ∧ ([5, 7] : List Int).length = 1 + 1)
      ∧ ((update_windowed [0] [0, 0] none 1 [5, 7]).1.sum = 1
          ∧ (update_windowed [0] [0, 0] none 1 [5, 7]).2.iter_chronological
              = (([5, 7] : List Int).drop 1).reverse
          ∧ ∀ counts2 : List Nat, counts2.length = ([0, 0] : List Nat).length →
              update_windowed [0] counts2 none 1 [5, 7]
                = update_windowed [0] [0, 0] none 1 [5, 7]) :=
  ⟨⟨by decide, by decide, by decide⟩,
    histogram_windowed_update_recomputes_window [0] [0, 0] 1 [5, 7]
      (by decide) (by decide) (by decide)⟩

/-! ## Bucket configuration (plots.rs:102-181)

`BucketRange::get_bounds` computes `n_buckets + 1` uniformly spaced
boundary values over exact rationals (the `f64` arithmetic is modelled
exactly; the claims exercised here do not depend on rounding).  The Rust
function `assert!(max > min)` panics on a degenerate range; the model is
total and every verified call either short-circuits on
`n_buckets == 0` before reaching it or satisfies the assertion. -/

structure BucketRange where
  n_buckets : Nat
  min : ℚ
  max : ℚ
deriving Repr, DecidableEq

/-- Embeds `BucketRange::get_bounds` (plots.rs:138-145). -/
def BucketRange.get_bounds (r : BucketRange) : List ℚ :=
  let width := (r.max - r.min) / (r.n_buckets : ℚ)
  (List.range (r.n_buckets + 1)).map fun i => r.min + (i : ℚ) * width

structure BucketConfig where
  bounds : List ℚ
  range_input : BucketRange
deriving Repr, DecidableEq

/-- Model of `sort_unstable_by_key(|&b| FloatOrd(b))`: insertion sort by
the total order on the (rational-modelled) boundary values. -/
def insertSorted (x : ℚ) : List ℚ → List ℚ
  | [] => [x]
  | y :: t => if x ≤ y then x :: y :: t else y :: insertSorted x t

def sortBounds : List ℚ → List ℚ
  | [] => []
  | x :: t => insertSorted x (sortBounds t)

/-- Embeds `BucketConfig::get_bounds` (plots.rs:158-170): `None` when
zero buckets are requested, otherwise the sorted uniform bounds. -/
def BucketConfig.get_bounds (c : BucketConfig) : Option (List ℚ) :=
  if c.range_input.n_buckets = 0 then none
  else some (sortBounds c.range_input.get_bounds)

/-- The fields of `HistogramData` touched by
`update_bounds_from_input`. -/
structure HistogramConfigState where
  buckets : BucketConfig
  bucket_counts : List Nat
deriving Repr, DecidableEq

/-- Embeds `HistogramData::update_bounds_from_input` (plots.rs:360-370):
on `None` the reconfiguration is refused and the state is unchanged;
otherwise the bounds are replaced and the counts vector is resized to
`bounds.len() + 1` and zero-filled. -/
def update_bounds_from_input (s : HistogramConfigState) :
    HistogramConfigState :=
  match s.buckets.get_bounds with
  | none => s
  | some new_bounds =>
      ⟨⟨new_bounds, s.buckets.range_input⟩,
        List.replicate (new_bounds.length + 1) 0⟩

/-- C8: Requesting zero buckets is rejected: the bound computation yields
`None`, the reconfiguration leaves the prior configuration (bounds and
counts vector) unchanged, and a zero-length bucket-counts vector is never
produced by a reconfiguration. -/
theorem histogram_zero_buckets_rejected (s : HistogramConfigState) :
    (s.buckets.range_input.n_buckets = 0 →
      s.buckets.get_bounds = none ∧ update_bounds_from_input s = s)
      ∧ (s.bucket_counts ≠ [] →
          (update_bounds_from_input s).bucket_counts ≠ []) := by
  constructor
  · intro h0
    have hnone : s.buckets.get_bounds = none := by
      simp [BucketConfig.get_bounds, h0]
    exact ⟨hnone, by simp [update_bounds_from_input, hnone]⟩
  · intro hne
    unfold update_bounds_from_input
    cases hg : s.buckets.get_bounds with
    | none => simpa using hne
    | some nb => simp

/-- A concrete state with zero buckets requested but a valid prior
configuration, used by the C8 witness. -/
def zeroBucketState : HistogramConfigState :=
  ⟨⟨[5], ⟨0, 0, 10⟩⟩, [1, 2]⟩

/-- C8 witness: a state with `n_buckets = 0` and a valid prior
configuration. -/
theorem histogram_zero_buckets_rejected_witness :
    (zeroBucketState.buckets.range_input.n_buckets = 0
        ∧ zeroBucketState.bucket_counts ≠ [])
      ∧ (zeroBucketState.buckets.get_bounds = none
          ∧ update_bounds_from_input zeroBucketState = zeroBucketState)
      ∧ (update_bounds_from_input zeroBucketState).bucket_counts ≠ [] :=
  ⟨⟨by decide, by decide⟩,
    (histogram_zero_buckets_rejected zeroBucketState).1 (by decide),
    (histogram_zero_buckets_rejected zeroBucketState).2 (by decide)⟩

/-! ## Metric descriptions (src/registry.rs)

The description store is `HashMap<DescriptionKey, MetricDescription>`,
modelled as an association list whose lookup is the first matching key
(a faithful model of the map: `add_description_if_missing` is the only
writer and uses `entry(key).or_insert(description)`).  `metrics::Unit`
is external; only the constructors the dashboard distinguishes are
modelled. -/

inductive MetricKind where
  | counter
  | gauge
  | histogram
deriving DecidableEq, Repr

inductive MetricUnit where
  | count
  | seconds
  | milliseconds
  | microseconds
  | nanoseconds
  | bytes
deriving DecidableEq, Repr

structure DescriptionKey where
  name : String
  kind : MetricKind
deriving DecidableEq, Repr

structure MetricDescription where
  unit : Option MetricUnit
  text : String
deriving DecidableEq, Repr

abbrev DescriptionMap : Type := List (DescriptionKey × MetricDescription)

def lookupDescription (m : DescriptionMap) (k : DescriptionKey) :
    Option MetricDescription :=
  (List.find? (fun p => p.1 == k) m).map Prod.snd

/-- Embeds `MetricsRegistry::add_description_if_missing`
(registry.rs:95-98): `descriptions.entry(key).or_insert(description)` —
insert only when the key is absent. -/
def add_description_if_missing (m : DescriptionMap) (key : DescriptionKey)
    (description : MetricDescription) : DescriptionMap :=
  match lookupDescription m key with
  | some _ => m
  | none => m ++ [(key, description)]

/-- Embeds the three `Recorder::describe_*` methods
(registry.rs:194-231), which all funnel into
`add_description_if_missing` with the respective kind. -/
def describe (m : DescriptionMap) (name : String) (kind : MetricKind)
    (unit : Option MetricUnit) (text : String) : DescriptionMap :=
  add_description_if_missing m ⟨name, kind⟩ ⟨unit, text⟩

theorem lookup_append_of_missing (m : DescriptionMap) (k : DescriptionKey)
    (d : MetricDescription) (h : lookupDescription m k = none) :
    lookupDescription (m ++ [(k, d)]) k = some d := by
  induction m with
  | nil => simp [lookupDescription, List.find?]
  | cons p t ih =>
    unfold lookupDescription at h ih ⊢
    rw [List.cons_append]
    cases hbeq : (p.1 == k) with
    | true =>
      exfalso
      rw [List.find?_cons, hbeq] at h
      simp at h
    | false =>
      rw [List.find?_cons, hbeq] at h
      rw [List.find?_cons, hbeq]
      exact ih h

/-- C7: For every description key (name, kind) not yet described, the
first `describe` call wins: after `describe(k, ms, "a")` followed by
`describe(k, s, "b")`, the stored description is `unit = ms, text = "a"`;
the second call leaves the map unchanged (silently dropped, no error
outcome exists). -/
theorem describe_first_writer_wins (m : DescriptionMap) (name : String)
    (kind : MetricKind) (u1 u2 : Option MetricUnit) (t1 t2 : String)
    (h : lookupDescription m ⟨name, kind⟩ = none) :
    lookupDescription (describe (describe m name kind u1 t1) name kind u2 t2)
        ⟨name, kind⟩ = some ⟨u1, t1⟩
      ∧ describe (describe m name kind u1 t1) name kind u2 t2
          = describe m name kind u1 t1 := by
  have h1 : lookupDescription (describe m name kind u1 t1) ⟨name, kind⟩
      = some ⟨u1, t1⟩ := by
    unfold describe add_description_if_missing
    rw [h]
    exact lookup_append_of_missing m ⟨name, kind⟩ ⟨u1, t1⟩ h
  have h2 : describe (describe m name kind u1 t1) name kind u2 t2
      = describe m name kind u1 t1 := by
    conv =>
      lhs
      rw [describe, add_description_if_missing, h1]
  exact ⟨by rw [h2, h1], h2⟩

/-- C7 witness: an empty map, key ("frame_time", counter), unit `ms` then
unit `s`. -/
theorem describe_first_writer_wins_witness :
    lookupDescription ([] : DescriptionMap) ⟨"frame_time", .counter⟩ = none
      ∧ (lookupDescription
            (describe (describe [] "frame_time" .counter
                (some .milliseconds) "a") "frame_time" .counter
              (some .seconds) "b") ⟨"frame_time", .counter⟩
            = some ⟨some .milliseconds, "a"⟩
          ∧ describe (describe [] "frame_time" .counter
                (some .milliseconds) "a") "frame_time" .counter
              (some .seconds) "b"
              = describe [] "frame_time" .counter (some .milliseconds) "a") :=
  ⟨rfl,
    describe_first_writer_wins [] "frame_time" .counter
      (some .milliseconds) (some .seconds) "a" "b" rfl⟩

/-! ## Namespace tree (src/namespace_tree.rs)

Metric names are `List Char` (ASCII throughout, so Rust byte indices and
char positions coincide).  Rust's `&name[path_start..]` panics when the
index is out of range; the builder therefore returns a `TreeResult` with
an explicit `panicked` outcome.  The recursion is driven by fuel (the
Rust recursion has no such parameter; `fuelOut` is a distinct outcome so
that a concrete evaluation is unambiguous). -/

def startsWithColon : List Char → Bool
  | ':' :: _ => true
  | _ => false

def endsWithColon (s : List Char) : Bool :=
  s.getLast? == some ':'

/-- Embeds `str::split_once("::")`: splits at the first occurrence of the
delimiter. -/
def splitOnceDelim : List Char → Option (List Char × List Char)
  | [] => none
  | c :: rest =>
    if [':', ':'].isPrefixOf (c :: rest) then some ([], rest.drop 1)
    else
      match splitOnceDelim rest with
      | some (before, after) => some (c :: before, after)
      | none => none

/-- Embeds `str::rsplit_once(':')`: splits at the last occurrence. -/
def rsplitOnceColon : List Char → Option (List Char × List Char)
  | [] => none
  | c :: rest =>
    match rsplitOnceColon rest with
    | some (before, after) => some (c :: before, after)
    | none => if c == ':' then some ([], rest) else none

/-- The node type (namespace_tree.rs:150-159); a `Metric` carries the
full underlying name in place of the `SearchResult`. -/
inductive NamespaceNode where
  | ns (display_path : List Char) (children : List NamespaceNode)
  | metric (display_path : List Char) (name : List Char)

/-- Embeds `NamespaceNode::create_parent_node` (namespace_tree.rs:229-256):
zero children → no node; one child → collapse with
`"{group_name}::{child}"`; otherwise a namespace node. -/
def create_parent_node (group_name : List Char)
    (children : List NamespaceNode) : Option NamespaceNode :=
  match children with
  | [] => none
  | [child] =>
    match child with
    | .ns display more =>
        some (.ns (group_name ++ [':', ':'] ++ display) more)
    | .metric display name =>
        some (.metric (group_name ++ [':', ':'] ++ display) name)
  | _ => some (.ns group_name children)

inductive PosResult where
  | pos (i : Nat)
  | panicked

/-- Embeds the `results.iter().position(|r| !r.key.key.name()
[path_start..].starts_with(group_name)).unwrap_or(results.len())` scan:
each probe first slices `r[path_start..]` (panicking out of range), and
the scan stops at the first non-matching entry. -/
def group_end_search (results : List (List Char)) (path_start : Nat)
    (group_name : List Char) (acc : Nat) : PosResult :=
  match results with
  | [] => .pos acc
  | r :: rest =>
    if path_start > r.length then .panicked
    else if group_name.isPrefixOf (r.drop path_start) then
      group_end_search rest path_start group_name (acc + 1)
    else .pos acc

inductive TreeResult where
  | nodes (roots : List NamespaceNode)
  | panicked
  | fuelOut

/-- Embeds `NamespaceNode::tree_from_sorted_results_recursive`
(namespace_tree.rs:167-227). -/
def tree_from_sorted_results_recursive (fuel : Nat)
    (results : List (List Char)) (path_start : Nat) : TreeResult :=
  match fuel with
  | 0 => .fuelOut
  | fuel + 1 =>
    match results with
    | [] => .nodes []
    | first :: rest =>
      if path_start > first.length then .panicked
      else if startsWithColon (first.drop path_start) then
        tree_from_sorted_results_recursive fuel rest path_start
      else
        match splitOnceDelim (first.drop path_start) with
        | some (group_name, _) =>
          match group_end_search (first :: rest) path_start group_name 0 with
          | .panicked => .panicked
          | .pos group_end =>
            match tree_from_sorted_results_recursive fuel
                ((first :: rest).take group_end)
                (path_start + group_name.length + 2) with
            | .panicked => .panicked
            | .fuelOut => .fuelOut
            | .nodes children =>
              match tree_from_sorted_results_recursive fuel
                  ((first :: rest).drop group_end) path_start with
              | .panicked => .panicked
              | .fuelOut => .fuelOut
              | .nodes more =>
                match create_parent_node group_name children with
                | some node => .nodes (node :: more)
                | none => .nodes more
        | none =>
          match tree_from_sorted_results_recursive fuel rest path_start with
          | .panicked => .panicked
          | .fuelOut => .fuelOut
          | .nodes more =>
            if first.isEmpty || endsWithColon first then .nodes more
            else
              match rsplitOnceColon first with
              | some (_, tailpart) => .nodes (.metric tailpart first :: more)
              | none => .nodes (.metric first first :: more)

/-- Lexicographic byte order on ASCII names, the comparison used by
`sort_unstable_by(|r1, r2| r1.key.key.name().cmp(r2.key.key.name()))`. -/
def lexLtName : List Char → List Char → Bool
  | [], [] => false
  | [], _ :: _ => true
  | _ :: _, [] => false
  | x :: xs, y :: ys =>
    if x.toNat < y.toNat then true
    else if y.toNat < x.toNat then false
    else lexLtName xs ys

def insertName (x : List Char) : List (List Char) → List (List Char)
  | [] => [x]
  | y :: t => if lexLtName y x then y :: insertName x t else x :: y :: t

/-- Model of the result of `sort_unstable_by` on distinct names. -/
def sortNames : List (List Char) → List (List Char)
  | [] => []
  | x :: t => insertName x (sortNames t)

/-- Embeds `NamespaceNode::tree_from_results` (namespace_tree.rs:162-165):
sort, then recurse from offset 0.  The fuel comfortably dominates the
recursion depth for the inputs evaluated below. -/
def tree_from_results (results : List (List Char)) : TreeResult :=
  tree_from_sorted_results_recursive
    ((sortNames results).length + ((sortNames results).map List.length).sum + 10)
    (sortNames results) 0

/-- C9: the claim says the builder terminates without panicking for every
input list.  The malformed names `""`, `"::"`, `":"`, `"a::"`, `"::a"`,
`"a:::b"` are indeed all dropped without producing a node (first
conjunct), and well-formed inputs build the expected grouped/collapsed
tree (second conjunct, spec §8 fixture) — but the builder is not
panic-free: on the legal names `["a::x", "ab"]` the group for `"a"` is
collected with `starts_with(group_name)` (without the delimiter), so the
recursive call slices `"ab"[3..]` out of range and panics (third
conjunct). -/
theorem namespace_tree_drops_malformed_but_can_panic :
    tree_from_results
        ["".toList, "::".toList, ":".toList, "a::".toList, "::a".toList,
          "a:::b".toList] = .nodes []
      ∧ tree_from_results
          ["fizz::bat".toList, "foo::bar::baz".toList, "foo::bar::fizz".toList,
            "foo::foo::baz".toList]
        = .nodes
            [.metric "fizz::bat".toList "fizz::bat".toList,
              .ns "foo".toList
                [.ns "bar".toList
                  [.metric "baz".toList "foo::bar::baz".toList,
                    .metric "fizz".toList "foo::bar::fizz".toList],
                  .metric "foo::baz".toList "foo::foo::baz".toList]]
      ∧ tree_from_results ["a::x".toList, "ab".toList] = .panicked :=
  ⟨rfl, rfl, rfl⟩

end BMD
